import Mathlib

/-!
# Verification of the Finance-Tracker analytics core

A shallow embedding of `src/main.py` (the Streamlit finance dashboard):
the keyword-learning categorizer, the budget-deviation analyzer and the
per-category linear forecaster, together with theorems settling the
specification claims about them.

Conventions of the embedding:
* a pandas `DataFrame` of transactions is a `List Tx`;
* the `st.session_state.categories` dict (insertion ordered, unique keys)
  is an association list `CategoryMap = List (String × List String)`;
* Python `str.lower()`/`str.strip()` become `pyLower`/`pyStrip`, structural
  recursion over the character list;
* monetary amounts are `ℚ`; months are `Nat` (a `pd.Period` is totally
  ordered, only the order is used);
* the one floating-point operation whose IEEE behaviour matters — the
  deviation division, which pandas performs without a zero guard — is
  embedded by the four-constructor type `Dev` (`fin`/`posInf`/`negInf`/`nan`)
  with IEEE semantics for dividing a finite numerator by zero;
* `save_categories()` / `st.rerun()` side effects are recorded as a `Bool`
  result component ("the mutation happened and was persisted").
-/

/-- Python `str.strip()`: drop leading and trailing whitespace.  Defined
structurally over the character list so that it evaluates by `decide`
(`String.trim` itself is defined by well-founded recursion on byte
positions and does not kernel-reduce). -/
def pyStrip (s : String) : String :=
  ⟨((s.data.dropWhile Char.isWhitespace).reverse.dropWhile
      Char.isWhitespace).reverse⟩

/-- Python `str.lower()` (ASCII case-folding, as `Char.toLower` provides). -/
def pyLower (s : String) : String := ⟨s.data.map Char.toLower⟩

/-- Python `s.lower().strip()`, the normalisation `categorize_transactions`
applies to both keywords and the `Details` field (src/main.py lines 32, 35). -/
def pyNorm (s : String) : String := pyStrip (pyLower s)

/-- The `st.session_state.categories` dict: category name → keyword list,
in insertion order, keys unique (a Python dict). -/
abbrev CategoryMap := List (String × List String)

/-- The key set (`dict` keys, in order). -/
def keysOf (m : CategoryMap) : List String := m.map Prod.fst

/-- A transaction row as `categorize_transactions` sees it: only the
`Details` field is read and only the `Category` field is written. -/
structure Tx where
  details : String
  category : String
  deriving DecidableEq, Repr

/-- src/main.py lines 25–39, `categorize_transactions(df)`:
set the `Category` of every row to `"Uncategorized"`, then iterate over the
category map in insertion order; skip `"Uncategorized"` and
empty-keyword categories; for each remaining category, overwrite the
`Category` of every row whose lowered-and-stripped `Details` occurs in the
lowered-and-stripped keyword list.  (The inner `df.iterrows` loop touches
each row independently, so it is a `List.map` over the rows.) -/
def categorizeStep (acc : List Tx) (p : String × List String) : List Tx :=
  if p.1 = "Uncategorized" ∨ p.2 = [] then acc
  else
    acc.map fun t =>
      if pyNorm t.details ∈ p.2.map pyNorm then { t with category := p.1 } else t

def categorize_transactions (m : CategoryMap) (ts : List Tx) : List Tx :=
  m.foldl categorizeStep (ts.map fun t => { t with category := "Uncategorized" })

/-- The per-row effect of the category loop of `categorize_transactions`:
starting from current category `cur`, fold over the map; an eligible
category whose keyword list matches the details overwrites the current
assignment. -/
def assignAux (m : CategoryMap) (cur : String) (d : String) : String :=
  m.foldl
    (fun c p =>
      if p.1 = "Uncategorized" ∨ p.2 = [] then c
      else if pyNorm d ∈ p.2.map pyNorm then p.1
      else c)
    cur

/-- The assignment `categorize_transactions` gives to a row with `Details`
field `d` (proved below: `categorize_eq_map_assign`). -/
def assignOf (m : CategoryMap) (d : String) : String :=
  assignAux m "Uncategorized" d

/-- Dictionary lookup `st.session_state.categories[category]`
(`none` = Python `KeyError`). -/
def lookupKeywords (m : CategoryMap) (c : String) : Option (List String) :=
  match m with
  | [] => none
  | p :: r => if p.1 = c then some p.2 else lookupKeywords r c

/-- In-place update `st.session_state.categories[category] = v`
(replaces the value in place at the position of the key, keeping dict order). -/
def updateKeywords (m : CategoryMap) (c : String) (v : List String) : CategoryMap :=
  match m with
  | [] => []
  | p :: r => if p.1 = c then (c, v) :: r else p :: updateKeywords r c v

/-- src/main.py lines 53–60, `add_keyword_to_category(category, keyword)`:
strip the keyword; if it is non-empty and not already in the list of the
category (case-sensitive `in`), append it, save, and return `True`; otherwise
return `False`.  A missing category key raises `KeyError`, embedded as
`none`.  The `Bool` records the returned value, which coincides with
"`save_categories()` was called". -/
def add_keyword_to_category (m : CategoryMap) (c : String) (kw : String) :
    Option (CategoryMap × Bool) :=
  match lookupKeywords m c with
  | none => none
  | some kws =>
    let k := pyStrip kw
    if k ≠ "" ∧ k ∉ kws then some (updateKeywords m c (kws ++ [k]), true)
    else some (m, false)

/-- src/main.py lines 205–209 (inline in `main`): the Add-Category button
handler.  If the entered name is non-empty (Python truthiness of
`new_category`) and not already a key, insert it with an empty keyword
list, save and rerun.  Otherwise nothing happens at all — no message, no
return value.  The `Bool` records "the insert+save+rerun happened". -/
def addCategory (m : CategoryMap) (name : String) : CategoryMap × Bool :=
  if name ≠ "" ∧ name ∉ keysOf m then (m ++ [(name, [])], true) else (m, false)

/-- src/main.py lines 12–15: the in-session default category map. -/
def initialCategories : CategoryMap := [("Uncategorized", [])]

/-- src/main.py lines 12–19: startup state of `st.session_state.categories`.
The default is installed first; if `categories.json` exists its parsed
content then replaces the map wholesale (`json.load` result assigned
directly, nothing re-inserted). -/
def loadCategories (file : Option CategoryMap) : CategoryMap :=
  match file with
  | some m => m
  | none => initialCategories

/-- Position of the first occurrence of key `c` in the map
(`m.length` when absent); the "map order" used for precedence talk. -/
def keyIdx (m : CategoryMap) (c : String) : Nat :=
  match m with
  | [] => 0
  | p :: r => if p.1 = c then 0 else keyIdx r c + 1

/-- The assignment rule as the specification words it ("the FIRST category
… whose keyword set contains …"): scan the map in insertion order and take
the first eligible match.  Stated from the spec only, to be compared with
the source-derived `assignOf`. -/
def specFirstMatch (m : CategoryMap) (d : String) : String :=
  match m.find? (fun p =>
      decide (p.1 ≠ "Uncategorized") && !p.2.isEmpty &&
      (p.2.map pyNorm).contains (pyNorm d)) with
  | some p => p.1
  | none => "Uncategorized"

/-! ## Structure lemmas for the categorizer -/

theorem assignAux_cons (p : String × List String) (m : CategoryMap)
    (cur d : String) :
    assignAux (p :: m) cur d =
      assignAux m
        (if p.1 = "Uncategorized" ∨ p.2 = [] then cur
         else if pyNorm d ∈ p.2.map pyNorm then p.1 else cur) d := rfl

/-- Each step of the category fold either leaves the running assignment
alone or replaces it by the name of that category. -/
theorem assignStep_cases (p : String × List String) (cur d : String) :
    (if p.1 = "Uncategorized" ∨ p.2 = [] then cur
     else if pyNorm d ∈ p.2.map pyNorm then p.1 else cur) = cur ∨
    (if p.1 = "Uncategorized" ∨ p.2 = [] then cur
     else if pyNorm d ∈ p.2.map pyNorm then p.1 else cur) = p.1 := by
  by_cases h : p.1 = "Uncategorized" ∨ p.2 = []
  · left
    rw [if_pos h]
  · by_cases hm : pyNorm d ∈ p.2.map pyNorm
    · right
      rw [if_neg h, if_pos hm]
    · left
      rw [if_neg h, if_neg hm]

/-- The fold either treats the two start values identically or returns
each start value untouched. -/
theorem assignAux_cur_cases (m : CategoryMap) (d s1 s2 : String) :
    assignAux m s1 d = assignAux m s2 d ∨
    (assignAux m s1 d = s1 ∧ assignAux m s2 d = s2) := by
  induction m generalizing s1 s2 with
  | nil => exact Or.inr ⟨rfl, rfl⟩
  | cons p r ih =>
    rw [assignAux_cons, assignAux_cons]
    by_cases h : p.1 = "Uncategorized" ∨ p.2 = []
    · rw [if_pos h, if_pos h]
      exact ih s1 s2
    · by_cases hm : pyNorm d ∈ p.2.map pyNorm
      · rw [if_neg h, if_pos hm, if_neg h, if_pos hm]
        exact Or.inl rfl
      · rw [if_neg h, if_neg hm, if_neg h, if_neg hm]
        exact ih s1 s2

theorem categorize_foldl_eq (m : CategoryMap) (acc : List Tx) :
    List.foldl categorizeStep acc m =
      acc.map fun t => ⟨t.details, assignAux m t.category t.details⟩ := by
  induction m generalizing acc with
  | nil =>
    exact (List.map_id acc).symm
  | cons p r ih =>
    rw [List.foldl_cons, ih]
    unfold categorizeStep
    by_cases h : p.1 = "Uncategorized" ∨ p.2 = []
    · rw [if_pos h]
      congr 1
      funext t
      rw [assignAux_cons, if_pos h]
    · rw [if_neg h, List.map_map]
      congr 1
      funext t
      simp only [Function.comp]
      rw [assignAux_cons, if_neg h]
      by_cases hm : pyNorm t.details ∈ p.2.map pyNorm
      · rw [if_pos hm, if_pos hm]
      · rw [if_neg hm, if_neg hm]

/-- Closed form of `categorize_transactions`: every row keeps its
`Details` and receives the category `assignOf` computes from them. -/
theorem categorize_eq_map_assign (m : CategoryMap) (ts : List Tx) :
    categorize_transactions m ts =
      ts.map fun t => ⟨t.details, assignOf m t.details⟩ := by
  unfold categorize_transactions
  rw [categorize_foldl_eq, List.map_map]
  rfl

/-- The eligibility-and-match condition of the category loop: the category
participates (is not `"Uncategorized"`, has keywords) and one of its
lowered-and-stripped keywords equals the lowered-and-stripped details. -/
def activeMatch (p : String × List String) (d : String) : Prop :=
  p.1 ≠ "Uncategorized" ∧ p.2 ≠ [] ∧ pyNorm d ∈ p.2.map pyNorm

instance (p : String × List String) (d : String) :
    Decidable (activeMatch p d) := by
  unfold activeMatch
  infer_instance

theorem assignStep_of_not_active (p : String × List String) (cur d : String)
    (h : ¬ activeMatch p d) :
    (if p.1 = "Uncategorized" ∨ p.2 = [] then cur
     else if pyNorm d ∈ p.2.map pyNorm then p.1 else cur) = cur := by
  by_cases h1 : p.1 = "Uncategorized" ∨ p.2 = []
  · rw [if_pos h1]
  · rw [if_neg h1]
    push_neg at h1
    have hm : pyNorm d ∉ p.2.map pyNorm := by
      intro hm
      exact h ⟨h1.1, h1.2, hm⟩
    rw [if_neg hm]

theorem assignStep_of_active (p : String × List String) (cur d : String)
    (h : activeMatch p d) :
    (if p.1 = "Uncategorized" ∨ p.2 = [] then cur
     else if pyNorm d ∈ p.2.map pyNorm then p.1 else cur) = p.1 := by
  have h1 : ¬ (p.1 = "Uncategorized" ∨ p.2 = []) := by
    rintro (h1 | h1)
    · exact h.1 h1
    · exact h.2.1 h1
  rw [if_neg h1, if_pos h.2.2]

/-- If no category in the map actively matches, the fold returns its
start value. -/
theorem assignAux_no_match (m : CategoryMap) (cur d : String)
    (h : ∀ p ∈ m, ¬ activeMatch p d) :
    assignAux m cur d = cur := by
  induction m generalizing cur with
  | nil => rfl
  | cons p r ih =>
    rw [assignAux_cons, assignStep_of_not_active p cur d (h p (by simp))]
    exact ih cur fun q hq => h q (by simp [hq])

/-- The result of the fold is the start value or the name of some actively
matching category of the map. -/
theorem assignAux_result (m : CategoryMap) (cur d : String) :
    assignAux m cur d = cur ∨
      ∃ p ∈ m, activeMatch p d ∧ assignAux m cur d = p.1 := by
  induction m generalizing cur with
  | nil => exact Or.inl rfl
  | cons p r ih =>
    rw [assignAux_cons]
    by_cases h : activeMatch p d
    · rw [assignStep_of_active p cur d h]
      rcases ih p.1 with h1 | ⟨q, hq, hqa, hqe⟩
      · exact Or.inr ⟨p, by simp, h, h1⟩
      · exact Or.inr ⟨q, by simp [hq], hqa, hqe⟩
    · rw [assignStep_of_not_active p cur d h]
      rcases ih cur with h1 | ⟨q, hq, hqa, hqe⟩
      · exact Or.inl h1
      · exact Or.inr ⟨q, by simp [hq], hqa, hqe⟩

/-- Last match wins: if position `i` actively matches and no later
position does, the fold returns the name at position `i`. -/
theorem assignAux_last_match (m : CategoryMap) (cur d : String) (i : Nat)
    (hi : i < m.length) (ha : activeMatch (m.get ⟨i, hi⟩) d)
    (hl : ∀ j (hj : j < m.length), i < j → ¬ activeMatch (m.get ⟨j, hj⟩) d) :
    assignAux m cur d = (m.get ⟨i, hi⟩).1 := by
  induction m generalizing cur i with
  | nil => exact absurd hi (Nat.not_lt_zero i)
  | cons p r ih =>
    match i with
    | 0 =>
      rw [assignAux_cons, assignStep_of_active p cur d ha]
      have hno : ∀ q ∈ r, ¬ activeMatch q d := by
        intro q hq
        rcases List.mem_iff_get.mp hq with ⟨⟨j, hj⟩, rfl⟩
        have := hl (j + 1) (by simpa using Nat.succ_lt_succ hj)
          (Nat.succ_pos j)
        simpa using this
      exact assignAux_no_match r p.1 d hno
    | Nat.succ i =>
      rw [assignAux_cons]
      have hi2 : i < r.length := Nat.lt_of_succ_lt_succ hi
      have ha2 : activeMatch (r.get ⟨i, hi2⟩) d := by simpa using ha
      have hl2 : ∀ j (hj : j < r.length), i < j →
          ¬ activeMatch (r.get ⟨j, hj⟩) d := by
        intro j hj hij
        have := hl (j + 1) (by simpa using Nat.succ_lt_succ hj)
          (Nat.succ_lt_succ hij)
        simpa using this
      simpa using ih _ i hi2 ha2 hl2

/-! ## Lookup/update lemmas for the category map -/

theorem lookupKeywords_updateKeywords_self (m : CategoryMap) (c : String)
    (v kws : List String) (h : lookupKeywords m c = some kws) :
    lookupKeywords (updateKeywords m c v) c = some v := by
  induction m with
  | nil => exact absurd h (by simp [lookupKeywords])
  | cons p r ih =>
    by_cases hpc : p.1 = c
    · unfold updateKeywords
      rw [if_pos hpc]
      unfold lookupKeywords
      rw [if_pos rfl]
    · unfold updateKeywords
      rw [if_neg hpc]
      unfold lookupKeywords
      rw [if_neg hpc]
      unfold lookupKeywords at h
      rw [if_neg hpc] at h
      exact ih h

theorem lookupKeywords_updateKeywords_other (m : CategoryMap) (c c2 : String)
    (v : List String) (h : c2 ≠ c) :
    lookupKeywords (updateKeywords m c v) c2 = lookupKeywords m c2 := by
  induction m with
  | nil => rfl
  | cons p r ih =>
    by_cases hpc : p.1 = c
    · unfold updateKeywords
      rw [if_pos hpc]
      unfold lookupKeywords
      rw [if_neg (fun he => h he.symm), if_neg (by rw [hpc]; exact fun he => h he.symm)]
    · unfold updateKeywords
      rw [if_neg hpc]
      unfold lookupKeywords
      by_cases hp2 : p.1 = c2
      · rw [if_pos hp2, if_pos hp2]
      · rw [if_neg hp2, if_neg hp2]
        exact ih

theorem keysOf_updateKeywords (m : CategoryMap) (c : String)
    (v : List String) : keysOf (updateKeywords m c v) = keysOf m := by
  induction m with
  | nil => rfl
  | cons p r ih =>
    by_cases hpc : p.1 = c
    · unfold updateKeywords
      rw [if_pos hpc]
      unfold keysOf
      simp [hpc]
  -- keys (c, v) :: r vs p :: r : heads p.1 = c
    · unfold updateKeywords
      rw [if_neg hpc]
      unfold keysOf at ih ⊢
      simp only [List.map_cons]
      rw [ih]

theorem keyIdx_cons (c0 : String) (l0 : List String) (r : CategoryMap)
    (c : String) :
    keyIdx ((c0, l0) :: r) c = if c0 = c then 0 else keyIdx r c + 1 := rfl

theorem assignAux_cons2 (c0 : String) (l0 : List String) (m : CategoryMap)
    (cur d : String) :
    assignAux ((c0, l0) :: m) cur d =
      assignAux m
        (if c0 = "Uncategorized" ∨ l0 = [] then cur
         else if pyNorm d ∈ l0.map pyNorm then c0 else cur) d := rfl

/-- Appending a keyword to category `C` either leaves every assignment
unchanged, or switches an assignment to `C`; in the latter case the old
assignment was the start value of the fold or a category strictly earlier than
`C` in map order. -/
theorem assignAux_update_append (m : CategoryMap) (C k : String)
    (kws : List String) (d : String)
    (hl : lookupKeywords m C = some kws) :
    ∀ cur : String,
    assignAux (updateKeywords m C (kws ++ [k])) cur d = assignAux m cur d ∨
      (assignAux (updateKeywords m C (kws ++ [k])) cur d = C ∧
        (assignAux m cur d = cur ∨
          keyIdx m (assignAux m cur d) < keyIdx m C)) := by
  induction m with
  | nil => exact absurd hl (by simp [lookupKeywords])
  | cons p r ih =>
    obtain ⟨c0, l0⟩ := p
    intro cur
    by_cases hpc : c0 = C
    · -- the head is the updated entry; the tail is untouched
      subst hpc
      have hkws : l0 = kws := by
        unfold lookupKeywords at hl
        rw [if_pos rfl] at hl
        exact Option.some.inj hl
      subst hkws
      unfold updateKeywords
      rw [if_pos rfl]
      rw [assignAux_cons2, assignAux_cons2]
      by_cases hU : c0 = "Uncategorized"
      · rw [if_pos (Or.inl hU), if_pos (Or.inl hU)]
        exact Or.inl rfl
      · have h1 : ¬ (c0 = "Uncategorized" ∨ l0 ++ [k] = []) := by
          push_neg
          exact ⟨hU, by simp⟩
        rw [if_neg h1]
        by_cases hmem : pyNorm d ∈ l0.map pyNorm
        · -- the old keywords already matched: both start values are c0
          have h2 : ¬ (c0 = "Uncategorized" ∨ l0 = []) := by
            push_neg
            refine ⟨hU, ?_⟩
            rintro rfl
            simp at hmem
          have hmk : pyNorm d ∈ (l0 ++ [k]).map pyNorm := by
            rw [List.map_append]
            exact List.mem_append_left _ hmem
          rw [if_pos hmk, if_neg h2, if_pos hmem]
          exact Or.inl rfl
        · -- the old entry did not match: the old side starts from cur
          have holdstart :
              (if c0 = "Uncategorized" ∨ l0 = [] then cur
               else if pyNorm d ∈ l0.map pyNorm then c0 else cur) = cur := by
            by_cases h2 : c0 = "Uncategorized" ∨ l0 = []
            · rw [if_pos h2]
            · rw [if_neg h2, if_neg hmem]
          rw [holdstart]
          by_cases hmk : pyNorm d ∈ (l0 ++ [k]).map pyNorm
          · rw [if_pos hmk]
            rcases assignAux_cur_cases r d c0 cur with heq | ⟨hnew, hold⟩
            · exact Or.inl heq
            · rw [hnew, hold]
              exact Or.inr ⟨rfl, Or.inl rfl⟩
          · rw [if_neg hmk]
            exact Or.inl rfl
    · -- the head is untouched; recurse into the tail
      have hl2 : lookupKeywords r C = some kws := by
        unfold lookupKeywords at hl
        rw [if_neg hpc] at hl
        exact hl
      unfold updateKeywords
      rw [if_neg hpc]
      rw [assignAux_cons2, assignAux_cons2]
      set s1 := (if c0 = "Uncategorized" ∨ l0 = [] then cur
                 else if pyNorm d ∈ l0.map pyNorm then c0 else cur) with hs1
      rcases ih hl2 s1 with heq | ⟨hnew, hrest⟩
      · exact Or.inl heq
      · refine Or.inr ⟨hnew, ?_⟩
        have hidxC : keyIdx ((c0, l0) :: r) C = keyIdx r C + 1 := by
          rw [keyIdx_cons, if_neg hpc]
        rcases hrest with hcur | hidx
        · -- the old tail fold fell through to s1
          rw [hcur]
          have hsc : s1 = cur ∨ s1 = c0 := by
            rw [hs1]
            by_cases h2 : c0 = "Uncategorized" ∨ l0 = []
            · rw [if_pos h2]
              exact Or.inl rfl
            · by_cases hm2 : pyNorm d ∈ l0.map pyNorm
              · rw [if_neg h2, if_pos hm2]
                exact Or.inr rfl
              · rw [if_neg h2, if_neg hm2]
                exact Or.inl rfl
          rcases hsc with h1 | h1
          · rw [h1]
            exact Or.inl rfl
          · rw [h1]
            refine Or.inr ?_
            rw [keyIdx_cons, if_pos rfl, hidxC]
            exact Nat.succ_pos _
        · refine Or.inr ?_
          rw [hidxC, keyIdx_cons]
          by_cases hpo : c0 = assignAux r s1 d
          · rw [if_pos hpo]
            exact Nat.succ_pos _
          · rw [if_neg hpo]
            exact Nat.succ_lt_succ hidx

/-! ## Budget recommendations (src/main.py lines 62–111)

`show_budget_recommendations` works on `monthly_summary`, the result of
`df.groupby(["Month", "Category"])["Amount"].sum()`: one row per
(month, category) pair.  The embedding takes that summary as input.  -/

/-- One row of `monthly_summary`. -/
structure SRow where
  month : Nat
  category : String
  amount : ℚ
  deriving DecidableEq, Repr

/-- The value of the deviation column.  pandas computes
`(last - avg) / avg * 100` on float64 columns with no zero guard; dividing
a finite float by zero does not raise but yields `inf`, `-inf` or `nan`.
Finite values are idealised as exact rationals. -/
inductive Dev where
  | fin (q : ℚ)
  | posInf
  | negInf
  | nan
  deriving DecidableEq, Repr

/-- Computes `(num / den) * 100` under IEEE semantics for a finite numerator:
the unguarded division of src/main.py line 83. -/
def devDiv100 (num den : ℚ) : Dev :=
  if den = 0 then
    if 0 < num then Dev.posInf else if num < 0 then Dev.negInf else Dev.nan
  else Dev.fin (num / den * 100)

/-- Float comparison `d > c` (IEEE: `inf > c` true, `nan > c` false). -/
def devGtBool (d : Dev) (c : ℚ) : Bool :=
  match d with
  | Dev.fin q => decide (c < q)
  | Dev.posInf => true
  | Dev.negInf => false
  | Dev.nan => false

/-- Float comparison `d < c` (IEEE: `-inf < c` true, `nan < c` false). -/
def devLtBool (d : Dev) (c : ℚ) : Bool :=
  match d with
  | Dev.fin q => decide (q < c)
  | Dev.posInf => false
  | Dev.negInf => true
  | Dev.nan => false

/-- src/main.py lines 86–92, `status_tag`. -/
def status_tag (d : Dev) : String :=
  if devGtBool d 20 then "⚠️ Overspending"
  else if devLtBool d (-20) then "🟢 Spending Less"
  else "✅ Within Range"

/-- src/main.py lines 94–100, `generate_recommendation`. -/
def generate_recommendation (d : Dev) (c : String) : String :=
  if devGtBool d 20 then "Reduce expenses in " ++ c ++ "."
  else if devLtBool d (-20) then "Good control in " ++ c ++ "."
  else "Maintain this level."

/-- Round to the nearest integer, ties to even (the rounding used by the
Python builtin `round` and by numpy/pandas `.round`). -/
def roundHalfEven (x : ℚ) : ℤ :=
  let n := ⌊x⌋
  let r := x - (n : ℚ)
  if r < 1/2 then n
  else if 1/2 < r then n + 1
  else if n % 2 = 0 then n else n + 1

/-- Python `round(x, 2)`. -/
def round2 (x : ℚ) : ℚ := (roundHalfEven (x * 100) : ℚ) / 100

/-- The expression `monthly_summary["Month"].max()` (src/main.py line 72). -/
def recentMonth (s : List SRow) : Nat :=
  (s.map SRow.month).foldl Nat.max 0

/-- The expression `monthly_summary.groupby("Category")["Amount"].mean()` for one
category: the mean of `Amount` over the summary rows of this category, i.e.
over all months present for it (src/main.py line 74). -/
def avgOf (s : List SRow) (c : String) : ℚ :=
  let rows := s.filter fun r => r.category = c
  (rows.map SRow.amount).sum / (rows.length : ℚ)

/-- One row of the `comparison` table of `show_budget_recommendations`. -/
structure DRow where
  category : String
  amountLast : ℚ
  amountAvg : ℚ
  deviationPct : Dev
  suggestedBudget : ℚ
  status : String
  recommendation : String
  deriving DecidableEq, Repr

/-- src/main.py lines 62–111, `show_budget_recommendations`, as the table
it renders: one row per summary row of the most recent month (the inner
merge with the per-category means always finds the mean, because a
category present in the recent month has at least that summary row), with
the unguarded deviation of line 83, the suggested budget of line 84, and
the status/recommendation tags.  An empty summary renders no table. -/
def show_budget_recommendations (s : List SRow) : List DRow :=
  (s.filter fun r => r.month = recentMonth s).map fun r =>
    let avg := avgOf s r.category
    let dev := devDiv100 (r.amount - avg) avg
    { category := r.category
      amountLast := r.amount
      amountAvg := avg
      deviationPct := dev
      suggestedBudget := round2 (avg * (9 / 10))
      status := status_tag dev
      recommendation := generate_recommendation dev r.category }

/-! ## Spending forecast (src/main.py lines 131–177)

`show_spending_forecast` groups the debit table into the same
`monthly` summary, then per category (in first-appearance order, as
`pandas.unique` yields) sorts by month, numbers the rows `1..n`, and when
`n ≥ 2` fits `sklearn.linear_model.LinearRegression` — ordinary least
squares, embedded by its closed-form normal-equation solution — and
predicts at index `n + 1`, rounded to 2 decimals. -/

/-- Stable insertion by month (the effect of `sort_values("Month")` on
rows with distinct months). -/
def insertByMonth (r : SRow) : List SRow → List SRow
  | [] => [r]
  | x :: xs => if r.month ≤ x.month then r :: x :: xs else x :: insertByMonth r xs

def sortByMonth (l : List SRow) : List SRow := l.foldr insertByMonth []

/-- The expression `monthly["Category"].unique()`: categories in first-appearance order. -/
def uniqueCats (s : List SRow) : List String :=
  s.foldl (fun acc r => if r.category ∈ acc then acc else acc ++ [r.category]) []

/-- The sequential month indices `1..n` assigned by
`cat_data["Month_Num"] = range(1, len(cat_data) + 1)`. -/
def xsOf (n : Nat) : List ℚ := (List.range n).map fun i : Nat => (i : ℚ) + 1

def sumX (n : Nat) : ℚ := (xsOf n).sum

def sumXX (n : Nat) : ℚ := ((xsOf n).map fun x => x * x).sum

def sumXY (ys : List ℚ) : ℚ :=
  (((xsOf ys.length).zip ys).map fun p => p.1 * p.2).sum

/-- Least-squares slope of `amount ≈ a + b·index` over indices `1..n`
(the closed form of the unique OLS solution `LinearRegression.fit`
computes). -/
def olsSlope (ys : List ℚ) : ℚ :=
  ((ys.length : ℚ) * sumXY ys - sumX ys.length * ys.sum) /
    ((ys.length : ℚ) * sumXX ys.length - sumX ys.length * sumX ys.length)

/-- Least-squares intercept. -/
def olsIntercept (ys : List ℚ) : ℚ :=
  (ys.sum - olsSlope ys * sumX ys.length) / (ys.length : ℚ)

/-- Prediction `model.predict` at `Month_Num = max + 1 = n + 1`. -/
def olsPredictNext (ys : List ℚ) : ℚ :=
  olsIntercept ys + olsSlope ys * ((ys.length : ℚ) + 1)

/-- The residuals `y_i - (a + b·x_i)` of the fitted line. -/
def olsResiduals (ys : List ℚ) : List ℚ :=
  ((xsOf ys.length).zip ys).map fun p =>
    p.2 - (olsIntercept ys + olsSlope ys * p.1)

/-- src/main.py lines 131–177, `show_spending_forecast`, as the table it
renders: for each category (first-appearance order) with at least 2
summary rows, one pair (category, rounded prediction); categories with
fewer rows are skipped. -/
def show_spending_forecast (s : List SRow) : List (String × ℚ) :=
  (uniqueCats s).filterMap fun c =>
    let ys := (sortByMonth (s.filter fun r => r.category = c)).map SRow.amount
    if 2 ≤ ys.length then some (c, round2 (olsPredictNext ys)) else none

/-! ## Least-squares arithmetic -/

theorem xsOf_succ (n : Nat) : xsOf (n + 1) = xsOf n ++ [(n : ℚ) + 1] := by
  unfold xsOf
  rw [List.range_succ, List.map_append]
  rfl

theorem length_xsOf (n : Nat) : (xsOf n).length = n := by
  simp [xsOf]

theorem two_mul_sumX (n : Nat) : 2 * sumX n = (n : ℚ) * ((n : ℚ) + 1) := by
  induction n with
  | zero => simp [sumX, xsOf]
  | succ n ih =>
    unfold sumX at ih ⊢
    rw [xsOf_succ, List.sum_append]
    simp only [List.sum_cons, List.sum_nil]
    push_cast
    linear_combination ih

theorem six_mul_sumXX (n : Nat) :
    6 * sumXX n = (n : ℚ) * ((n : ℚ) + 1) * (2 * (n : ℚ) + 1) := by
  induction n with
  | zero => simp [sumXX, xsOf]
  | succ n ih =>
    unfold sumXX at ih ⊢
    rw [xsOf_succ, List.map_append, List.sum_append]
    simp only [List.map_cons, List.map_nil, List.sum_cons, List.sum_nil]
    push_cast
    linear_combination ih

theorem ols_denom_eq (n : Nat) :
    12 * ((n : ℚ) * sumXX n - sumX n * sumX n) =
      (n : ℚ) * (n : ℚ) * ((n : ℚ) * (n : ℚ) - 1) := by
  have h1 := two_mul_sumX n
  have h2 := six_mul_sumXX n
  linear_combination (2 * (n : ℚ)) * h2 -
    3 * (2 * sumX n + (n : ℚ) * ((n : ℚ) + 1)) * h1

theorem ols_denom_ne (n : Nat) (h : 2 ≤ n) :
    (n : ℚ) * sumXX n - sumX n * sumX n ≠ 0 := by
  intro h0
  have hd := ols_denom_eq n
  rw [h0, mul_zero] at hd
  have hn : (2 : ℚ) ≤ (n : ℚ) := by exact_mod_cast h
  have h4 : (4 : ℚ) ≤ (n : ℚ) * (n : ℚ) := by nlinarith
  have h5 : (12 : ℚ) ≤ (n : ℚ) * (n : ℚ) * ((n : ℚ) * (n : ℚ) - 1) := by
    nlinarith [mul_nonneg (by linarith : (0 : ℚ) ≤ (n : ℚ) * (n : ℚ) - 4)
      (by linarith : (0 : ℚ) ≤ (n : ℚ) * (n : ℚ) + 3)]
  linarith

theorem zip_sum_sub (A B : ℚ) (xs : List ℚ) :
    ∀ ys : List ℚ, xs.length = ys.length →
    ((xs.zip ys).map fun p => p.2 - (A + B * p.1)).sum =
      ys.sum - (xs.length : ℚ) * A - B * xs.sum := by
  induction xs with
  | nil =>
    intro ys h
    cases ys with
    | nil => simp
    | cons y ys => simp at h
  | cons x xs ih =>
    intro ys h
    cases ys with
    | nil => simp at h
    | cons y ys =>
      simp only [List.zip_cons_cons, List.map_cons, List.sum_cons,
        List.length_cons]
      rw [ih ys (by simpa using h)]
      push_cast
      ring

theorem zip_sum_mul_sub (A B : ℚ) (xs : List ℚ) :
    ∀ ys : List ℚ, xs.length = ys.length →
    ((xs.zip ys).map fun p => p.1 * (p.2 - (A + B * p.1))).sum =
      ((xs.zip ys).map fun p => p.1 * p.2).sum - A * xs.sum -
        B * ((xs.map fun x => x * x).sum) := by
  induction xs with
  | nil =>
    intro ys h
    cases ys with
    | nil => simp
    | cons y ys => simp at h
  | cons x xs ih =>
    intro ys h
    cases ys with
    | nil => simp at h
    | cons y ys =>
      simp only [List.zip_cons_cons, List.map_cons, List.sum_cons]
      rw [ih ys (by simpa using h)]
      ring

/-- First normal equation of the fit: the residuals sum to zero. -/
theorem ols_residuals_sum_zero (ys : List ℚ) (h : 2 ≤ ys.length) :
    (olsResiduals ys).sum = 0 := by
  unfold olsResiduals
  rw [zip_sum_sub _ _ _ ys (by rw [length_xsOf])]
  rw [length_xsOf]
  have hsx : (xsOf ys.length).sum = sumX ys.length := rfl
  rw [hsx]
  have hn : ((ys.length : ℚ)) ≠ 0 := Nat.cast_ne_zero.mpr (by omega)
  unfold olsIntercept
  field_simp

/-- Second normal equation: the index-weighted residuals sum to zero.
Together with `ols_residuals_sum_zero` this characterises the fitted line
as the ordinary-least-squares solution. -/
theorem ols_xresiduals_sum_zero (ys : List ℚ) (h : 2 ≤ ys.length) :
    (((xsOf ys.length).zip ys).map fun p =>
        p.1 * (p.2 - (olsIntercept ys + olsSlope ys * p.1))).sum = 0 := by
  rw [zip_sum_mul_sub _ _ _ ys (by rw [length_xsOf])]
  have hsx : (xsOf ys.length).sum = sumX ys.length := rfl
  have hsxx : ((xsOf ys.length).map fun x => x * x).sum = sumXX ys.length := rfl
  have hsxy : (((xsOf ys.length).zip ys).map fun p => p.1 * p.2).sum =
      sumXY ys := rfl
  rw [hsx, hsxx, hsxy]
  have hn : ((ys.length : ℚ)) ≠ 0 := Nat.cast_ne_zero.mpr (by omega)
  have hd : (ys.length : ℚ) * sumXX ys.length -
      sumX ys.length * sumX ys.length ≠ 0 := ols_denom_ne ys.length h
  unfold olsIntercept olsSlope
  field_simp
  ring

/-- With exactly two points the least-squares line passes through both:
the prediction at index 3 is `2·y₂ - y₁`. -/
theorem olsPredictNext_two (a b : ℚ) : olsPredictNext [a, b] = 2 * b - a := by
  have hxs : xsOf 2 = [1, 2] := by
    unfold xsOf
    rw [show List.range 2 = [0, 1] from rfl]
    norm_num
  unfold olsPredictNext olsIntercept olsSlope sumXY sumX sumXX
  simp only [List.length_cons, List.length_nil]
  rw [hxs]
  norm_num
  ring

theorem length_insertByMonth (r : SRow) (l : List SRow) :
    (insertByMonth r l).length = l.length + 1 := by
  induction l with
  | nil => rfl
  | cons x xs ih =>
    unfold insertByMonth
    by_cases h : r.month ≤ x.month
    · rw [if_pos h]
      rfl
    · rw [if_neg h]
      simp only [List.length_cons, ih]

theorem length_sortByMonth (l : List SRow) :
    (sortByMonth l).length = l.length := by
  induction l with
  | nil => rfl
  | cons x xs ih =>
    unfold sortByMonth at ih ⊢
    simp only [List.foldr_cons, length_insertByMonth, ih, List.length_cons]

theorem mem_uniqueCats_aux (s : List SRow) (c : String) :
    ∀ acc : List String,
      c ∈ s.foldl
        (fun acc r => if r.category ∈ acc then acc else acc ++ [r.category])
        acc ↔
      c ∈ acc ∨ ∃ r ∈ s, r.category = c := by
  induction s with
  | nil => simp
  | cons r s ih =>
    intro acc
    rw [List.foldl_cons, ih]
    by_cases h : r.category ∈ acc
    · rw [if_pos h]
      constructor
      · rintro (h1 | h1)
        · exact Or.inl h1
        · exact Or.inr (by simpa using Or.inr h1)
      · rintro (h1 | h1)
        · exact Or.inl h1
        · rcases (by simpa using h1 : r.category = c ∨ ∃ a ∈ s, a.category = c)
            with h2 | h2
          · exact Or.inl (h2 ▸ h)
          · exact Or.inr h2
    · rw [if_neg h]
      constructor
      · rintro (h1 | h1)
        · rcases (by simpa using h1 : c ∈ acc ∨ c = r.category) with h2 | h2
          · exact Or.inl h2
          · exact Or.inr (by simpa using Or.inl h2.symm)
        · exact Or.inr (by simpa using Or.inr h1)
      · rintro (h1 | h1)
        · exact Or.inl (by simpa using Or.inl h1)
        · rcases (by simpa using h1 : r.category = c ∨ ∃ a ∈ s, a.category = c)
            with h2 | h2
          · exact Or.inl (by simpa using Or.inr h2.symm)
          · exact Or.inr h2

theorem mem_uniqueCats (s : List SRow) (c : String) :
    c ∈ uniqueCats s ↔ ∃ r ∈ s, r.category = c := by
  unfold uniqueCats
  rw [mem_uniqueCats_aux]
  simp

/-! ## Claims -/

/-- C1, counterexample.  The claim says the FIRST matching category (in
map insertion order) wins.  With map `A ↦ {x}, B ↦ {x}` and a transaction
whose details are `"x"`, the first-match rule of the spec picks `A`, but
`categorize_transactions` assigns `B`: each later matching category
overwrites the earlier assignment, so the LAST match wins. -/
theorem c1_first_match_counterexample :
    specFirstMatch [("A", ["x"]), ("B", ["x"])] "x" = "A" ∧
      categorize_transactions [("A", ["x"]), ("B", ["x"])] [⟨"x", "w"⟩] =
        [⟨"x", "B"⟩] ∧
      ("A" : String) ≠ "B" := by decide

/-- C1 (amended): `classify` assigns each transaction the LAST category
(in map insertion order, skipping `"Uncategorized"` and categories with
empty keyword sets) whose keyword set contains a keyword equal, after
case-folding and trimming both sides, to the details of the transaction; when
several categories match, the one latest in map order wins: if position
`i` of the map actively matches and no later position does, the assigned
category is the one at position `i`. -/
theorem c1_last_match_wins (m : CategoryMap) (d : String) (i : Nat)
    (hi : i < m.length) (ha : activeMatch (m.get ⟨i, hi⟩) d)
    (hl : ∀ j (hj : j < m.length), i < j → ¬ activeMatch (m.get ⟨j, hj⟩) d) :
    assignOf m d = (m.get ⟨i, hi⟩).1 ∧
      ∀ ts : List Tx, categorize_transactions m ts =
        ts.map fun t => ⟨t.details, assignOf m t.details⟩ :=
  ⟨assignAux_last_match m "Uncategorized" d i hi ha hl,
   categorize_eq_map_assign m⟩

/-- C1 witness: in the two-matching-categories map the later category `B`
is assigned. -/
theorem c1_last_match_wins_witness :
    assignOf [("A", ["x"]), ("B", ["x"])] "x" = "B" ∧
      categorize_transactions [("A", ["x"]), ("B", ["x"])] [⟨"x", "w"⟩] =
        [⟨"x", "B"⟩] := by
  have h := c1_last_match_wins [("A", ["x"]), ("B", ["x"])] "x" 1
    (by decide) (by decide) (by decide)
  refine ⟨h.1, ?_⟩
  rw [h.2 [⟨"x", "w"⟩]]
  decide

/-- C2: classification is idempotent — re-running
`categorize_transactions` with the same map yields the same rows — and
the category of each row is a pure function of its `Details` field and the
map (`assignOf`). -/
theorem c2_classify_idempotent_pure (m : CategoryMap) (ts : List Tx) :
    categorize_transactions m (categorize_transactions m ts) =
      categorize_transactions m ts ∧
    categorize_transactions m ts =
      ts.map fun t => ⟨t.details, assignOf m t.details⟩ := by
  refine ⟨?_, categorize_eq_map_assign m ts⟩
  rw [categorize_eq_map_assign, categorize_eq_map_assign, List.map_map]
  rfl

theorem status_tag_fin (q : ℚ) :
    (20 < q → status_tag (Dev.fin q) = "⚠️ Overspending") ∧
    (q < -20 → status_tag (Dev.fin q) = "🟢 Spending Less") ∧
    (-20 ≤ q → q ≤ 20 → status_tag (Dev.fin q) = "✅ Within Range") := by
  refine ⟨fun h => ?_, fun h => ?_, fun h1 h2 => ?_⟩
  · simp [status_tag, devGtBool, h]
  · have hn : ¬ (20 : ℚ) < q := by linarith
    simp [status_tag, devGtBool, devLtBool, h, hn]
  · have hn1 : ¬ (20 : ℚ) < q := by linarith
    have hn2 : ¬ q < (-20 : ℚ) := by linarith
    simp [status_tag, devGtBool, devLtBool, hn1, hn2]

/-- C3, counterexample.  The claim says the deviation division is
explicitly guarded when the historical average is 0 and such categories
are reported with the deviation omitted or undefined.  Line 83 of
src/main.py divides unconditionally: with months `(-100, 100)` for
category `A` the average is 0, and the table still contains a row for
`A`, with deviation `+inf` (IEEE) and status flagged `Overspending` —
not omitted, not `nan`. -/
theorem c3_division_guard_counterexample :
    avgOf [⟨0, "A", -100⟩, ⟨1, "A", 100⟩] "A" = 0 ∧
      show_budget_recommendations [⟨0, "A", -100⟩, ⟨1, "A", 100⟩] =
        [⟨"A", 100, 0, Dev.posInf, 0, "⚠️ Overspending",
          "Reduce expenses in A."⟩] ∧
      Dev.posInf ≠ Dev.nan := by
  refine ⟨by norm_num [avgOf, List.filter], ?_, by decide⟩
  norm_num [show_budget_recommendations, recentMonth, avgOf, devDiv100,
    round2, roundHalfEven, status_tag, generate_recommendation, devGtBool,
    devLtBool, List.filter, List.cons_ne_nil]
  decide

/-- C3 (amended): the deviation division is NOT guarded.  Every category
present in the recent month is emitted as a row — never omitted — with
deviation `devDiv100 (recent - avg) avg`, pandas/IEEE semantics; the
computation is total (no crash), and a zero average with a positive
recent amount produces `+inf`, which is flagged `Overspending` rather
than reported as undefined. -/
theorem c3_unguarded_division (s : List SRow) (r : SRow) (hr : r ∈ s)
    (hm : r.month = recentMonth s) :
    ∃ drow ∈ show_budget_recommendations s,
      drow.category = r.category ∧
      drow.amountLast = r.amount ∧
      drow.deviationPct =
        devDiv100 (r.amount - avgOf s r.category) (avgOf s r.category) ∧
      (avgOf s r.category = 0 → 0 < r.amount →
        drow.deviationPct = Dev.posInf ∧
          drow.status = "⚠️ Overspending") := by
  refine ⟨_, List.mem_map.mpr
    ⟨r, List.mem_filter.mpr ⟨hr, by simp [hm]⟩, rfl⟩, rfl, rfl, rfl, ?_⟩
  intro h0 hpos
  have hdev : devDiv100 (r.amount - avgOf s r.category)
      (avgOf s r.category) = Dev.posInf := by
    rw [h0, sub_zero]
    unfold devDiv100
    rw [if_pos rfl, if_pos hpos]
  constructor
  · exact hdev
  · show status_tag (devDiv100 (r.amount - avgOf s r.category)
      (avgOf s r.category)) = "⚠️ Overspending"
    rw [hdev]
    rfl

/-- C3 witness: the zero-average category of the counterexample input is
emitted with deviation `+inf` and status `Overspending`. -/
theorem c3_unguarded_division_witness :
    ∃ drow ∈ show_budget_recommendations [⟨0, "A", -100⟩, ⟨1, "A", 100⟩],
      drow.deviationPct = Dev.posInf ∧ drow.status = "⚠️ Overspending" := by
  obtain ⟨drow, hmem, _, _, _, himp⟩ :=
    c3_unguarded_division [⟨0, "A", -100⟩, ⟨1, "A", 100⟩] ⟨1, "A", 100⟩
      (by decide) (by decide)
  obtain ⟨h1, h2⟩ := himp (by norm_num [avgOf, List.filter]) (by norm_num)
  exact ⟨drow, hmem, h1, h2⟩

/-- C4: for every category present in the recent month with nonzero
average, the emitted row has
`deviation_pct = (recent - average) / average * 100` with the average the
mean of `total_amount` over all months present for that category
(`avgOf`, which includes the recent month), budget
`round(average * 0.9, 2)`, and the status thresholds
`> 20 ↦ Overspending`, `< -20 ↦ SpendingLess`, otherwise `WithinRange`. -/
theorem c4_deviation_arithmetic (s : List SRow) (r : SRow) (hr : r ∈ s)
    (hm : r.month = recentMonth s) (h0 : avgOf s r.category ≠ 0) :
    ∃ drow ∈ show_budget_recommendations s,
      drow.category = r.category ∧
      drow.amountLast = r.amount ∧
      drow.amountAvg = avgOf s r.category ∧
      drow.deviationPct = Dev.fin ((r.amount - avgOf s r.category) /
        avgOf s r.category * 100) ∧
      drow.suggestedBudget = round2 (avgOf s r.category * (9 / 10)) ∧
      (20 < (r.amount - avgOf s r.category) / avgOf s r.category * 100 →
        drow.status = "⚠️ Overspending") ∧
      ((r.amount - avgOf s r.category) / avgOf s r.category * 100 < -20 →
        drow.status = "🟢 Spending Less") ∧
      (-20 ≤ (r.amount - avgOf s r.category) / avgOf s r.category * 100 →
        (r.amount - avgOf s r.category) / avgOf s r.category * 100 ≤ 20 →
        drow.status = "✅ Within Range") := by
  have hdev : devDiv100 (r.amount - avgOf s r.category)
      (avgOf s r.category) =
      Dev.fin ((r.amount - avgOf s r.category) / avgOf s r.category * 100) := by
    unfold devDiv100
    rw [if_neg h0]
  refine ⟨_, List.mem_map.mpr
    ⟨r, List.mem_filter.mpr ⟨hr, by simp [hm]⟩, rfl⟩,
    rfl, rfl, rfl, hdev, rfl, ?_, ?_, ?_⟩
  · intro h
    show status_tag (devDiv100 (r.amount - avgOf s r.category)
      (avgOf s r.category)) = "⚠️ Overspending"
    rw [hdev]
    exact (status_tag_fin _).1 h
  · intro h
    show status_tag (devDiv100 (r.amount - avgOf s r.category)
      (avgOf s r.category)) = "🟢 Spending Less"
    rw [hdev]
    exact (status_tag_fin _).2.1 h
  · intro h1 h2
    show status_tag (devDiv100 (r.amount - avgOf s r.category)
      (avgOf s r.category)) = "✅ Within Range"
    rw [hdev]
    exact (status_tag_fin _).2.2 h1 h2

/-- C4 witness: months `(70, 130)` give average 100, deviation `30`,
status `Overspending`, budget `90`; months `(130, 70)` give deviation
`-30` and status `Spending Less`. -/
theorem c4_deviation_arithmetic_witness :
    (∃ drow ∈ show_budget_recommendations [⟨0, "A", 70⟩, ⟨1, "A", 130⟩],
      drow.deviationPct = Dev.fin 30 ∧ drow.status = "⚠️ Overspending" ∧
        drow.suggestedBudget = 90) ∧
    (∃ drow ∈ show_budget_recommendations [⟨0, "A", 130⟩, ⟨1, "A", 70⟩],
      drow.deviationPct = Dev.fin (-30) ∧
        drow.status = "🟢 Spending Less") := by
  constructor
  · obtain ⟨drow, hmem, _, _, _, hdev, hsb, hover, _, _⟩ :=
      c4_deviation_arithmetic [⟨0, "A", 70⟩, ⟨1, "A", 130⟩] ⟨1, "A", 130⟩
        (by decide) (by decide) (by norm_num [avgOf, List.filter])
    have havg : avgOf [⟨0, "A", 70⟩, ⟨1, "A", 130⟩] "A" = 100 := by
      norm_num [avgOf, List.filter]
    rw [havg] at hdev hsb hover
    norm_num at hdev hsb hover
    refine ⟨drow, hmem, hdev, hover, ?_⟩
    rw [hsb]
    norm_num [round2, roundHalfEven]
  · obtain ⟨drow, hmem, _, _, _, hdev, _, _, hless, _⟩ :=
      c4_deviation_arithmetic [⟨0, "A", 130⟩, ⟨1, "A", 70⟩] ⟨1, "A", 70⟩
        (by decide) (by decide) (by norm_num [avgOf, List.filter])
    have havg : avgOf [⟨0, "A", 130⟩, ⟨1, "A", 70⟩] "A" = 100 := by
      norm_num [avgOf, List.filter]
    rw [havg] at hdev hless
    norm_num at hdev hless
    exact ⟨drow, hmem, hdev, hless⟩

/-- C10, counterexample.  The claim says a category whose only month is
the recent month has `deviation_pct = 0`.  When the total of that single month
is 0 the average is also 0 and pandas computes `0/0 = nan`, not `0`: the
row is emitted with deviation `nan` (status still `Within Range`). -/
theorem c10_single_month_counterexample :
    show_budget_recommendations [⟨0, "A", 0⟩] =
      [⟨"A", 0, 0, Dev.nan, 0, "✅ Within Range", "Maintain this level."⟩] ∧
      Dev.nan ≠ Dev.fin 0 := by
  refine ⟨?_, by decide⟩
  norm_num [show_budget_recommendations, recentMonth, avgOf, devDiv100,
    round2, roundHalfEven, status_tag, generate_recommendation, devGtBool,
    devLtBool, List.filter, List.cons_ne_nil]

/-- C10 (amended): for a category whose only summary row is in the recent
month, the average equals the amount of that month and the suggested budget is
`round(0.9 · amount, 2)`; when the amount is nonzero the deviation is
`0`, and when it is zero the deviation is `nan` (`0/0`); in both cases
the status is `Within Range` — a newly appearing category is never
flagged `Overspending`. -/
theorem c10_single_month_within_range (s : List SRow) (r : SRow)
    (hone : s.filter (fun x => x.category = r.category) = [r])
    (hm : r.month = recentMonth s) :
    avgOf s r.category = r.amount ∧
    ∃ drow ∈ show_budget_recommendations s,
      drow.category = r.category ∧
      drow.amountAvg = r.amount ∧
      drow.suggestedBudget = round2 (r.amount * (9 / 10)) ∧
      drow.status = "✅ Within Range" ∧
      drow.status ≠ "⚠️ Overspending" ∧
      (r.amount ≠ 0 → drow.deviationPct = Dev.fin 0) ∧
      (r.amount = 0 → drow.deviationPct = Dev.nan) := by
  have hr : r ∈ s := by
    have : r ∈ s.filter (fun x => x.category = r.category) := by
      rw [hone]
      exact List.mem_singleton.mpr rfl
    exact List.mem_of_mem_filter this
  have havg : avgOf s r.category = r.amount := by
    unfold avgOf
    rw [hone]
    simp
  have hdev : devDiv100 (r.amount - avgOf s r.category) (avgOf s r.category) =
      if r.amount = 0 then Dev.nan else Dev.fin 0 := by
    rw [havg, sub_self]
    unfold devDiv100
    by_cases h0 : r.amount = 0
    · rw [if_pos h0, if_pos h0]
      norm_num
    · rw [if_neg h0, if_neg h0, zero_div, zero_mul]
  have hstat : status_tag (devDiv100 (r.amount - avgOf s r.category)
      (avgOf s r.category)) = "✅ Within Range" := by
    rw [hdev]
    by_cases h0 : r.amount = 0
    · rw [if_pos h0]
      rfl
    · rw [if_neg h0]
      exact (status_tag_fin 0).2.2 (by norm_num) (by norm_num)
  refine ⟨havg, _, List.mem_map.mpr
    ⟨r, List.mem_filter.mpr ⟨hr, by simp [hm]⟩, rfl⟩,
    rfl, havg, ?_, hstat, ?_, ?_, ?_⟩
  · show round2 (avgOf s r.category * (9 / 10)) = round2 (r.amount * (9 / 10))
    rw [havg]
  · show status_tag (devDiv100 (r.amount - avgOf s r.category)
      (avgOf s r.category)) ≠ "⚠️ Overspending"
    rw [hstat]
    decide
  · intro h0
    show devDiv100 (r.amount - avgOf s r.category) (avgOf s r.category) =
      Dev.fin 0
    rw [hdev, if_neg h0]
  · intro h0
    show devDiv100 (r.amount - avgOf s r.category) (avgOf s r.category) =
      Dev.nan
    rw [hdev, if_pos h0]

/-- C10 witness: a category appearing only in the recent month with
amount 50 gets average 50, deviation 0 and status `Within Range`. -/
theorem c10_single_month_within_range_witness :
    avgOf [⟨0, "A", 50⟩] "A" = 50 ∧
      ∃ drow ∈ show_budget_recommendations [⟨0, "A", 50⟩],
        drow.status = "✅ Within Range" ∧ drow.deviationPct = Dev.fin 0 := by
  obtain ⟨havg, drow, hmem, _, _, _, hstat, _, hfin, _⟩ :=
    c10_single_month_within_range [⟨0, "A", 50⟩] ⟨0, "A", 50⟩
      (by decide) (by decide)
  exact ⟨havg, drow, hmem, hstat, hfin (by norm_num)⟩

/-- C5: the forecast engine emits no row for a category with fewer than
2 summary rows (monthly points); for a category with at least 2 it emits
the pair (category, `round2` of the least-squares prediction at index
`n + 1` over the month-sorted amounts with indices `1..n`); the fitted
line satisfies both least-squares normal equations (residuals and
index-weighted residuals sum to zero); and with exactly two points the
fit is exact: the prediction is `2·y₂ - y₁`, so amounts 100 then 200
predict 300. -/
theorem c5_forecast_rule (s : List SRow) (c : String) :
    ((s.filter fun r => r.category = c).length < 2 →
      ∀ p ∈ show_spending_forecast s, p.1 ≠ c) ∧
    (2 ≤ (s.filter fun r => r.category = c).length →
      (c, round2 (olsPredictNext
          ((sortByMonth (s.filter fun r => r.category = c)).map SRow.amount)))
        ∈ show_spending_forecast s) ∧
    (∀ ys : List ℚ, 2 ≤ ys.length →
      (olsResiduals ys).sum = 0 ∧
      (((xsOf ys.length).zip ys).map fun p =>
          p.1 * (p.2 - (olsIntercept ys + olsSlope ys * p.1))).sum = 0) ∧
    (∀ a b : ℚ, olsPredictNext [a, b] = 2 * b - a) := by
  have hlen : ∀ c2 : String,
      ((sortByMonth (s.filter fun r => r.category = c2)).map SRow.amount).length
        = (s.filter fun r => r.category = c2).length := by
    intro c2
    rw [List.length_map, length_sortByMonth]
  refine ⟨?_, ?_, fun ys h => ⟨ols_residuals_sum_zero ys h,
    ols_xresiduals_sum_zero ys h⟩, olsPredictNext_two⟩
  · intro hlt p hp
    obtain ⟨c2, hc2, hf⟩ := List.mem_filterMap.mp hp
    by_cases h2 : 2 ≤ ((sortByMonth (s.filter fun r => r.category = c2)).map
        SRow.amount).length
    · rw [if_pos h2] at hf
      obtain rfl := Option.some.inj hf
      intro heq
      have hc2c : c2 = c := heq
      rw [hc2c, hlen c] at h2
      omega
    · rw [if_neg h2] at hf
      exact absurd hf (by simp)
  · intro h2
    have hc : c ∈ uniqueCats s := by
      rw [mem_uniqueCats]
      have hne : s.filter (fun r => r.category = c) ≠ [] := by
        intro he
        rw [he] at h2
        simp at h2
      obtain ⟨r, hr⟩ := List.exists_mem_of_ne_nil _ hne
      exact ⟨r, List.mem_of_mem_filter hr,
        by simpa using (List.mem_filter.mp hr).2⟩
    refine List.mem_filterMap.mpr ⟨c, hc, ?_⟩
    rw [if_pos (by rw [hlen c]; exact h2)]

/-- C5 witness: monthly amounts 100 then 200 predict 300; a category
with a single monthly point is omitted. -/
theorem c5_forecast_rule_witness :
    ("A", (300 : ℚ)) ∈
      show_spending_forecast [⟨0, "A", 100⟩, ⟨1, "A", 200⟩] ∧
    show_spending_forecast [⟨0, "A", 100⟩] = [] := by
  constructor
  · have h := (c5_forecast_rule [⟨0, "A", 100⟩, ⟨1, "A", 200⟩] "A").2.1
      (by decide)
    have hys : (sortByMonth (([⟨0, "A", 100⟩, ⟨1, "A", 200⟩] :
        List SRow).filter fun r => r.category = "A")).map SRow.amount =
        [100, 200] := by decide
    rw [hys] at h
    have h300 : round2 (olsPredictNext [100, 200]) = 300 := by
      rw [olsPredictNext_two]
      norm_num [round2, roundHalfEven]
    rw [h300] at h
    exact h
  · have h := (c5_forecast_rule [⟨0, "A", 100⟩] "A").1 (by decide)
    cases hf : show_spending_forecast [⟨0, "A", 100⟩] with
    | nil => rfl
    | cons p l =>
      exfalso
      have hp : p ∈ show_spending_forecast [⟨0, "A", 100⟩] := by
        rw [hf]
        exact List.mem_cons_self p l
      have hone : ∀ q ∈ show_spending_forecast [⟨0, "A", 100⟩],
          q.1 = "A" := by
        intro q hq
        obtain ⟨c2, hc2, hfq⟩ := List.mem_filterMap.mp hq
        have : c2 = "A" := by
          have := (mem_uniqueCats _ c2).mp hc2
          obtain ⟨r, hr, hrc⟩ := this
          rw [← hrc, List.mem_singleton.mp hr]
        subst this
        by_cases hb : 2 ≤ ((sortByMonth (([⟨0, "A", 100⟩] :
            List SRow).filter fun r => r.category = "A")).map SRow.amount).length
        · rw [if_pos hb] at hfq
          obtain rfl := Option.some.inj hfq
          rfl
        · rw [if_neg hb] at hfq
          exact absurd hfq (by simp)
      exact h p hp (hone p hp)

theorem lookupKeywords_append_self (m : CategoryMap) (name : String)
    (v : List String) (h : name ∉ keysOf m) :
    lookupKeywords (m ++ [(name, v)]) name = some v := by
  induction m with
  | nil =>
    simp [lookupKeywords]
  | cons p r ih =>
    have hp : p.1 ≠ name := by
      intro he
      exact h (by simp [keysOf, he])
    rw [List.cons_append]
    unfold lookupKeywords
    rw [if_neg hp]
    exact ih fun hm => h (by simp [keysOf] at hm ⊢; exact Or.inr hm)

/-- C6, counterexample.  The claim says a fresh name is inserted with an
empty keyword set and persisted, and a duplicate fails with a
`DuplicateCategory` indicator returned to the caller.  The empty string
is a fresh name, yet the handler does nothing (Python truthiness guard);
and the duplicate case produces exactly the same silent no-op result as
the empty-name case — the inline handler returns nothing and reports
nothing, so no `DuplicateCategory`-specific indicator exists. -/
theorem c6_addCategory_counterexample :
    ("" ∉ keysOf initialCategories) ∧
      addCategory initialCategories "" = (initialCategories, false) ∧
      addCategory initialCategories "Uncategorized" =
        addCategory initialCategories "" := by decide

/-- C6 (amended): adding a name already present (including
`"Uncategorized"`) is a silent no-op — the map is unchanged and nothing
is persisted, with no error value produced; adding the empty name is the
same silent no-op; adding a fresh non-empty name appends it with an
empty keyword set and persists. -/
theorem c6_addCategory_silent (m : CategoryMap) (name : String) :
    (name ∈ keysOf m → addCategory m name = (m, false)) ∧
    (addCategory m "" = (m, false)) ∧
    (name ≠ "" → name ∉ keysOf m →
      (addCategory m name).2 = true ∧
      keysOf (addCategory m name).1 = keysOf m ++ [name] ∧
      lookupKeywords (addCategory m name).1 name = some []) := by
  refine ⟨fun hmem => ?_, ?_, fun hne hnm => ?_⟩
  · unfold addCategory
    rw [if_neg (by simp [hmem])]
  · unfold addCategory
    rw [if_neg (by simp)]
  · have hcond : name ≠ "" ∧ name ∉ keysOf m := ⟨hne, hnm⟩
    unfold addCategory
    rw [if_pos hcond]
    refine ⟨rfl, ?_, lookupKeywords_append_self m name [] hnm⟩
    simp [keysOf]

/-- C6 witness: `"Uncategorized"` is rejected silently;
`"Food"` is inserted with an empty keyword list and persisted. -/
theorem c6_addCategory_silent_witness :
    addCategory initialCategories "Uncategorized" =
      (initialCategories, false) ∧
    (addCategory initialCategories "Food").2 = true ∧
    lookupKeywords (addCategory initialCategories "Food").1 "Food" =
      some [] := by
  have h1 := (c6_addCategory_silent initialCategories "Uncategorized").1
    (by decide)
  have h2 := (c6_addCategory_silent initialCategories "Food").2.2
    (by decide) (by decide)
  exact ⟨h1, h2.1, h2.2.2⟩

/-- C7: `learn` (src/main.py `add_keyword_to_category`) first strips the
keyword; it returns `False` and changes nothing when the stripped keyword
is empty or already present under case-sensitive containment; otherwise
it appends the stripped keyword at the end of the keyword list,
persists, and returns `True`, leaving every other category untouched. -/
theorem c7_learn_contract (m : CategoryMap) (c kw : String)
    (kws : List String) (hl : lookupKeywords m c = some kws) :
    (pyStrip kw = "" ∨ pyStrip kw ∈ kws →
      add_keyword_to_category m c kw = some (m, false)) ∧
    (pyStrip kw ≠ "" → pyStrip kw ∉ kws →
      add_keyword_to_category m c kw =
        some (updateKeywords m c (kws ++ [pyStrip kw]), true) ∧
      lookupKeywords (updateKeywords m c (kws ++ [pyStrip kw])) c =
        some (kws ++ [pyStrip kw]) ∧
      ∀ c2, c2 ≠ c →
        lookupKeywords (updateKeywords m c (kws ++ [pyStrip kw])) c2 =
          lookupKeywords m c2) := by
  constructor
  · intro h
    unfold add_keyword_to_category
    rw [hl]
    have hneg : ¬ (pyStrip kw ≠ "" ∧ pyStrip kw ∉ kws) := by
      rcases h with h | h
      · intro hc
        exact hc.1 h
      · intro hc
        exact hc.2 h
    simp only [if_neg hneg]
  · intro h1 h2
    refine ⟨?_, lookupKeywords_updateKeywords_self m c _ kws hl,
      fun c2 hc2 => lookupKeywords_updateKeywords_other m c c2 _ hc2⟩
    unfold add_keyword_to_category
    rw [hl]
    simp only [if_pos (And.intro h1 h2)]

/-- C7 witness: on `{Uncategorized ↦ [], Food ↦ ["a"]}`, learning
`" b "` for `Food` appends the stripped `"b"` and returns true; learning
`" a "` (already present after stripping) returns false and changes
nothing; learning `"  "` (empty after stripping) also returns false. -/
theorem c7_learn_contract_witness :
    add_keyword_to_category [("Uncategorized", []), ("Food", ["a"])]
        "Food" " b " =
      some ([("Uncategorized", []), ("Food", ["a", "b"])], true) ∧
    add_keyword_to_category [("Uncategorized", []), ("Food", ["a"])]
        "Food" " a " =
      some ([("Uncategorized", []), ("Food", ["a"])], false) ∧
    add_keyword_to_category [("Uncategorized", []), ("Food", ["a"])]
        "Food" "  " =
      some ([("Uncategorized", []), ("Food", ["a"])], false) := by
  have hb := (c7_learn_contract [("Uncategorized", []), ("Food", ["a"])]
    "Food" " b " ["a"] (by decide)).2 (by decide) (by decide)
  have ha := (c7_learn_contract [("Uncategorized", []), ("Food", ["a"])]
    "Food" " a " ["a"] (by decide)).1 (Or.inr (by decide))
  have he := (c7_learn_contract [("Uncategorized", []), ("Food", ["a"])]
    "Food" "  " ["a"] (by decide)).1 (Or.inl (by decide))
  refine ⟨?_, ha, he⟩
  rw [hb.1]
  decide

/-- C8, counterexample.  The claim (stated for first-match-wins) says
adding a keyword to `C` never removes a match previously assigned to a
category of equal or higher map-order precedence than `C`.  With map
`A ↦ {x}, B ↦ {y}`, the transaction `"x"` is assigned `A`; after adding
keyword `"x"` to the LATER category `B`, the code reassigns it to `B`,
removing the match of the earlier (higher-precedence) category `A`. -/
theorem c8_monotonicity_counterexample :
    categorize_transactions [("A", ["x"]), ("B", ["y"])] [⟨"x", "w"⟩] =
      [⟨"x", "A"⟩] ∧
    add_keyword_to_category [("A", ["x"]), ("B", ["y"])] "B" "x" =
      some ([("A", ["x"]), ("B", ["y", "x"])], true) ∧
    categorize_transactions [("A", ["x"]), ("B", ["y", "x"])] [⟨"x", "w"⟩] =
      [⟨"x", "B"⟩] ∧
    keyIdx [("A", ["x"]), ("B", ["y"])] "A" <
      keyIdx [("A", ["x"]), ("B", ["y"])] "B" := by decide

/-- C8 (amended): under the last-match-wins code, adding keyword `kw` to
category `c` either leaves the assignment of a transaction unchanged or
switches it to `c`; in the latter case the old assignment was the
`"Uncategorized"` fallback or a category strictly EARLIER than `c` in
map order.  Equivalently: the addition never disturbs matches of
categories later than `c`, and can only newly assign transactions
to `c`. -/
theorem c8_keyword_monotonicity (m : CategoryMap) (c kw : String)
    (m2 : CategoryMap) (b : Bool) (d : String)
    (h : add_keyword_to_category m c kw = some (m2, b)) :
    (∀ ts, categorize_transactions m2 ts =
      ts.map fun t => ⟨t.details, assignOf m2 t.details⟩) ∧
    (assignOf m2 d = assignOf m d ∨
      (assignOf m2 d = c ∧
        (assignOf m d = "Uncategorized" ∨
          keyIdx m (assignOf m d) < keyIdx m c))) := by
  refine ⟨categorize_eq_map_assign m2, ?_⟩
  unfold add_keyword_to_category at h
  cases hl : lookupKeywords m c with
  | none =>
    rw [hl] at h
    exact absurd h (by simp)
  | some kws =>
    rw [hl] at h
    dsimp only at h
    by_cases hcond : pyStrip kw ≠ "" ∧ pyStrip kw ∉ kws
    · rw [if_pos hcond] at h
      have hm2 : m2 = updateKeywords m c (kws ++ [pyStrip kw]) :=
        (congrArg Prod.fst (Option.some.inj h)).symm
      rw [hm2]
      exact assignAux_update_append m c (pyStrip kw) kws d hl "Uncategorized"
    · rw [if_neg hcond] at h
      have hm2 : m2 = m := (congrArg Prod.fst (Option.some.inj h)).symm
      rw [hm2]
      exact Or.inl rfl

/-- C8 witness: adding `"x"` to `B` in `A ↦ {x}, B ↦ {y}` — the
conclusion holds at this input (here via the second disjunct: the
transaction moves from the earlier `A` to `B`). -/
theorem c8_keyword_monotonicity_witness :
    add_keyword_to_category [("A", ["x"]), ("B", ["y"])] "B" "x" =
      some ([("A", ["x"]), ("B", ["y", "x"])], true) ∧
    (assignOf [("A", ["x"]), ("B", ["y", "x"])] "x" =
        assignOf [("A", ["x"]), ("B", ["y"])] "x" ∨
      (assignOf [("A", ["x"]), ("B", ["y", "x"])] "x" = "B" ∧
        (assignOf [("A", ["x"]), ("B", ["y"])] "x" = "Uncategorized" ∨
          keyIdx [("A", ["x"]), ("B", ["y"])]
              (assignOf [("A", ["x"]), ("B", ["y"])] "x") <
            keyIdx [("A", ["x"]), ("B", ["y"])] "B"))) :=
  ⟨by decide,
   (c8_keyword_monotonicity [("A", ["x"]), ("B", ["y"])] "B" "x"
      [("A", ["x"]), ("B", ["y", "x"])] true "x" (by decide)).2⟩

theorem assignAux_exists_active (m : CategoryMap) (d : String) :
    ∀ cur, (∃ p ∈ m, activeMatch p d) →
      ∃ q ∈ m, activeMatch q d ∧ assignAux m cur d = q.1 := by
  induction m with
  | nil =>
    intro cur h
    obtain ⟨p, hp, _⟩ := h
    simp at hp
  | cons p r ih =>
    intro cur h
    rw [assignAux_cons]
    by_cases ha : activeMatch p d
    · rw [assignStep_of_active p cur d ha]
      rcases assignAux_result r p.1 d with h1 | ⟨q, hq, hqa, hqe⟩
      · exact ⟨p, by simp, ha, h1⟩
      · exact ⟨q, by simp [hq], hqa, hqe⟩
    · rw [assignStep_of_not_active p cur d ha]
      have h2 : ∃ q ∈ r, activeMatch q d := by
        obtain ⟨q, hq, hqa⟩ := h
        rcases List.mem_cons.mp hq with rfl | hq2
        · exact absurd hqa ha
        · exact ⟨q, hq2, hqa⟩
      obtain ⟨q, hq, hqa, hqe⟩ := ih cur h2
      exact ⟨q, by simp [hq], hqa, hqe⟩

theorem assignOf_update_uncat (m : CategoryMap) (kws : List String)
    (d : String) :
    ∀ cur, assignAux (updateKeywords m "Uncategorized" kws) cur d =
      assignAux m cur d := by
  induction m with
  | nil =>
    intro cur
    rfl
  | cons p r ih =>
    obtain ⟨c0, l0⟩ := p
    intro cur
    by_cases hpc : c0 = "Uncategorized"
    · subst hpc
      unfold updateKeywords
      rw [if_pos rfl]
      rw [assignAux_cons2, assignAux_cons2]
      rw [if_pos (Or.inl rfl), if_pos (Or.inl rfl)]
    · unfold updateKeywords
      rw [if_neg hpc]
      rw [assignAux_cons2, assignAux_cons2]
      exact ih _

/-- C9, counterexample.  The claim says the map contains
`"Uncategorized"` after the startup load.  The load assigns the parsed
file content wholesale (src/main.py line 19), re-inserting nothing: a
`categories.json` without the key yields a startup map without it. -/
theorem c9_load_counterexample :
    "Uncategorized" ∉ keysOf (loadCategories (some [("Food", ["x"])])) := by
  decide

/-- C9 (amended): the in-session default establishes `"Uncategorized"`
and every mutation preserves it (`addCategory` only appends keys; `learn`
never changes the key set), but the wholesale startup load only has it if
the persisted file does.  Its keywords are never used for matching —
replacing them changes no assignment — and `classify` assigns
`"Uncategorized"` exactly when no other non-empty category matches, i.e.
only as the default fallback. -/
theorem c9_uncategorized_invariant :
    ("Uncategorized" ∈ keysOf (loadCategories none)) ∧
    (∀ (m : CategoryMap) (name : String), "Uncategorized" ∈ keysOf m →
      "Uncategorized" ∈ keysOf (addCategory m name).1) ∧
    (∀ (m : CategoryMap) (c kw : String) (m2 : CategoryMap) (b : Bool),
      add_keyword_to_category m c kw = some (m2, b) →
      keysOf m2 = keysOf m) ∧
    (∀ (m : CategoryMap) (kws : List String) (d : String),
      assignOf (updateKeywords m "Uncategorized" kws) d = assignOf m d) ∧
    (∀ (m : CategoryMap) (d : String),
      assignOf m d = "Uncategorized" ↔ ∀ p ∈ m, ¬ activeMatch p d) := by
  refine ⟨by decide, ?_, ?_, ?_, ?_⟩
  · intro m name hmem
    unfold addCategory
    by_cases hc : name ≠ "" ∧ name ∉ keysOf m
    · rw [if_pos hc]
      show "Uncategorized" ∈ keysOf (m ++ [(name, [])])
      unfold keysOf at hmem ⊢
      rw [List.map_append]
      exact List.mem_append_left _ hmem
    · rw [if_neg hc]
      exact hmem
  · intro m c kw m2 b h
    unfold add_keyword_to_category at h
    cases hl : lookupKeywords m c with
    | none =>
      rw [hl] at h
      exact absurd h (by simp)
    | some kws =>
      rw [hl] at h
      dsimp only at h
      by_cases hcond : pyStrip kw ≠ "" ∧ pyStrip kw ∉ kws
      · rw [if_pos hcond] at h
        have hm2 : m2 = updateKeywords m c (kws ++ [pyStrip kw]) :=
          (congrArg Prod.fst (Option.some.inj h)).symm
        rw [hm2]
        exact keysOf_updateKeywords m c _
      · rw [if_neg hcond] at h
        have hm2 : m2 = m := (congrArg Prod.fst (Option.some.inj h)).symm
        rw [hm2]
  · intro m kws d
    exact assignOf_update_uncat m kws d "Uncategorized"
  · intro m d
    constructor
    · intro hU
      by_contra hno
      push_neg at hno
      obtain ⟨p, hp, ha⟩ := hno
      obtain ⟨q, _, hqa, hqe⟩ :=
        assignAux_exists_active m d "Uncategorized" ⟨p, hp, ha⟩
      exact hqa.1 (hqe.symm.trans hU)
    · intro h
      exact assignAux_no_match m _ d h

/-- C9 witness: preservation and fallback at concrete inputs. -/
theorem c9_uncategorized_invariant_witness :
    "Uncategorized" ∈ keysOf (addCategory (loadCategories none) "Food").1 ∧
    keysOf [("Uncategorized", []), ("Food", ["a", "b"])] =
      keysOf [("Uncategorized", []), ("Food", ["a"])] ∧
    assignOf [("Uncategorized", ["x"]), ("Food", ["y"])] "x" =
      "Uncategorized" := by
  have h := c9_uncategorized_invariant
  exact ⟨h.2.1 (loadCategories none) "Food" (by decide),
    h.2.2.1 [("Uncategorized", []), ("Food", ["a"])] "Food" " b "
      [("Uncategorized", []), ("Food", ["a", "b"])] true (by decide),
    (h.2.2.2.2 [("Uncategorized", ["x"]), ("Food", ["y"])] "x").mpr
      (by decide)⟩
